import Mathlib

/-!
Verification development for the diff-classification engine of the
source-tools editor extension.

The embedding follows the TypeScript source:
- processDiffResult (the run classifier) is modelled as a left-to-right pass
  (pdStep / pdLoop) over a list of Change runs, followed by the post-loop
  flushes (pdFinalize) and the end-of-file artifact suppression (suppressEof).
- parseUnifiedDiff (the unified-diff parser) is modelled as a pass (puStep /
  puLoop) over the newline-split lines of the diff text.
- computeDiffForFileAsync's non-IO decision structure is modelled by
  computeDiffForFile over an explicit DiffSource.
Line numbers are integers, mirroring JavaScript number arithmetic (the parser
can genuinely compute the value -1).  String scanning is carried out over
character lists with structural recursion so that every definition evaluates
inside the kernel.
-/

namespace SourceTools

/-- One run of the line diff, as produced by the line-diff producer: the
literal text of the run plus the inserted/deleted flags. -/
structure Change where
  value : String
  added : Bool
  removed : Bool
deriving DecidableEq, Repr

/-- An inclusive range of 0-based current-file lines. -/
structure DiffRange where
  startLine : Int
  endLine : Int
deriving DecidableEq, Repr

/-- The four-part classification produced by either front end.  The removed
and changed collections hold the anchor line of each pushed decoration
(the source stores a zero-width editor range at that line). -/
structure ClassificationResult where
  added : List DiffRange
  removed : List Int
  changed : List Int
  created : List DiffRange
deriving DecidableEq, Repr

/-- Global replacement of a CR-LF pair by LF, as the source's
value.replace of the CR-LF pattern does before counting lines. -/
def replaceCrLf : List Char → List Char
  | [] => []
  | '\r' :: '\n' :: rest => '\n' :: replaceCrLf rest
  | c :: rest => c :: replaceCrLf rest

/-- Split a character list at every newline, keeping empty segments,
as JavaScript's split on a newline does. -/
def splitOnNl : List Char → List (List Char)
  | [] => [[]]
  | '\n' :: rest => [] :: splitOnNl rest
  | c :: rest =>
    match splitOnNl rest with
    | p :: ps => (c :: p) :: ps
    | [] => [[c]]

/-- Whether a character list ends with a newline. -/
def endsWithNl (cs : List Char) : Bool :=
  match cs.getLast? with
  | some '\n' => true
  | _ => false

/-- Number of lines of a run's text: normalize line endings, split at
newlines, and do not count the trailing empty segment of a final newline.
Mirrors the lineCount computation of processDiffResult. -/
def lineCountOf (value : String) : Nat :=
  let n := replaceCrLf value.toList
  (splitOnNl n).length - (if endsWithNl n then 1 else 0)

/-- The mutable state of the run-classifier pass. -/
structure PDState where
  added : List DiffRange
  removed : List Int
  changed : List Int
  lineNumber : Int
  currentAddedRange : Option DiffRange
  removedLineCount : Nat
  removedAt : Int
deriving DecidableEq, Repr

/-- One iteration of processDiffResult's loop over the runs, with the
look-ahead at the next run. -/
def pdStep (s : PDState) (part : Change) (nextPart : Option Change) : PDState :=
  let lineCount : Int := (lineCountOf part.value : Int)
  if part.added = true ∧ 0 < s.removedLineCount ∧ 0 ≤ s.removedAt then
    -- a change rather than just an addition
    let minLines : Nat := Nat.min (lineCountOf part.value) s.removedLineCount
    let changed' := s.changed ++ (List.range minLines).map (fun (i : Nat) => s.removedAt + (i : Int))
    let added' :=
      if s.removedLineCount < lineCountOf part.value then
        s.added ++ [⟨s.removedAt + (s.removedLineCount : Int), s.lineNumber + lineCount - 1⟩]
      else s.added
    { s with changed := changed', added := added',
             removedLineCount := 0, removedAt := -1,
             lineNumber := s.lineNumber + lineCount }
  else if part.added = true then
    -- a pure addition
    let startLine := s.lineNumber
    let endLine := s.lineNumber + lineCount - 1
    let s' :=
      match s.currentAddedRange with
      | some r =>
        if r.endLine = startLine - 1 then
          { s with currentAddedRange := some ⟨r.startLine, endLine⟩ }
        else
          { s with added := s.added ++ [r], currentAddedRange := some ⟨startLine, endLine⟩ }
      | none => { s with currentAddedRange := some ⟨startLine, endLine⟩ }
    { s' with lineNumber := s.lineNumber + lineCount }
  else if part.removed = true then
    let s₁ := if s.removedLineCount = 0 then { s with removedAt := s.lineNumber } else s
    let s₂ := { s₁ with removedLineCount := s₁.removedLineCount + lineCountOf part.value }
    match nextPart with
    | some np =>
      if np.added = true then s₂
      else { s₂ with removed := s₂.removed ++ [s.lineNumber],
                     removedLineCount := 0, removedAt := -1 }
    | none => { s₂ with removed := s₂.removed ++ [s.lineNumber],
                        removedLineCount := 0, removedAt := -1 }
  else
    -- unchanged section
    let s₁ :=
      if 0 < s.removedLineCount then
        { s with removed := s.removed ++ [s.removedAt], removedLineCount := 0, removedAt := -1 }
      else s
    let s₂ :=
      match s₁.currentAddedRange with
      | some r => { s₁ with added := s₁.added ++ [r], currentAddedRange := none }
      | none => s₁
    { s₂ with lineNumber := s₂.lineNumber + lineCount }

/-- The loop of processDiffResult: each run is processed with a look-ahead at
the head of the remaining runs. -/
def pdLoop (s : PDState) : List Change → PDState
  | [] => s
  | p :: rest => pdLoop (pdStep s p rest.head?) rest

/-- The initial classifier state. -/
def initPD : PDState := ⟨[], [], [], 0, none, 0, -1⟩

/-- The post-loop flushes of processDiffResult: remaining pending removals and
a still-open added range. -/
def pdFinalize (s : PDState) : PDState :=
  let s₁ :=
    if 0 < s.removedLineCount then { s with removed := s.removed ++ [s.removedAt] } else s
  match s₁.currentAddedRange with
  | some r => { s₁ with added := s₁.added ++ [r], currentAddedRange := none }
  | none => s₁

/-- The end-of-file artifact check of processDiffResult: a final single-line
added entry at the very last line is discarded when the last run is an
insertion whose text is empty or a lone newline sequence. -/
def suppressEof (added : List DiffRange) (lineNumber : Int) (diffResult : List Change) :
    List DiffRange :=
  match added.getLast? with
  | none => added
  | some lastAdded =>
    if lastAdded.startLine = lastAdded.endLine ∧ lastAdded.startLine = lineNumber - 1 then
      match diffResult.getLast? with
      | some lastPart =>
        if lastPart.added = true ∧
            (lastPart.value = "\n" ∨ lastPart.value = "\r\n" ∨ lastPart.value = "") then
          added.dropLast
        else added
      | none => added
    else added

/-- The run classifier: single pass over the diff runs, post-loop flushes,
then the end-of-file artifact suppression.  The created collection is never
populated here. -/
def processDiffResult (diffResult : List Change) : ClassificationResult :=
  let s := pdFinalize (pdLoop initPD diffResult)
  ⟨suppressEof s.added s.lineNumber diffResult, s.removed, s.changed, []⟩

/-! ## The unified-diff parser -/

/-- Whether the string literal pre is a prefix of the line (the source's
startsWith test on a line of the diff text). -/
def lineStarts (line : List Char) (pre : String) : Bool :=
  pre.toList.isPrefixOf line

/-- Numeric value of a digit list, most significant digit first, as parseInt
yields on the digits captured by the hunk-header pattern. -/
def digitsVal (ds : List Char) : Nat :=
  ds.foldl (fun a c => a * 10 + (c.toNat - 48)) 0

/-- Consume an optional comma-and-digits group.  If a comma is followed by at
least one digit the whole greedy digit run is consumed; otherwise the input is
left in place (and a leading comma will then fail the following
space test, exactly as the regex's optional group does). -/
def skipCommaDigits (cs : List Char) : List Char :=
  match cs with
  | ',' :: rest =>
    if (rest.takeWhile Char.isDigit) = [] then ',' :: rest
    else rest.dropWhile Char.isDigit
  | _ => cs

/-- Match the hunk-header pattern of parseUnifiedDiff against the start of a
line and return the target-file (second) position when it matches. -/
def parseHunkHeader (line : List Char) : Option Int :=
  match line with
  | '@' :: '@' :: ' ' :: '-' :: rest =>
    if (rest.takeWhile Char.isDigit) = [] then none
    else
      match skipCommaDigits (rest.dropWhile Char.isDigit) with
      | ' ' :: '+' :: r2 =>
        let ds2 := r2.takeWhile Char.isDigit
        if ds2 = [] then none
        else
          match skipCommaDigits (r2.dropWhile Char.isDigit) with
          | ' ' :: '@' :: '@' :: _ => some (digitsVal ds2 : Int)
          | _ => none
      | _ => none
  | _ => none

/-- The mutable state of the unified-diff parser pass. -/
structure PUState where
  added : List DiffRange
  removed : List Int
  changed : List Int
  targetLineNum : Int
  currentAddedRange : Option DiffRange
deriving DecidableEq, Repr

/-- The look-ahead of the minus-line case: skip blank and context lines and
report whether the next plus, minus, or hunk-header line is a plus line. -/
def lookaheadPlus : List (List Char) → Bool
  | [] => false
  | l :: ls =>
    if l = [] ∨ (¬ lineStarts l "+" = true ∧ ¬ lineStarts l "-" = true ∧ (parseHunkHeader l).isNone) then
      lookaheadPlus ls
    else
      lineStarts l "+"

/-- One iteration of parseUnifiedDiff's loop over the split lines, with the
rest of the lines available for the minus-line look-ahead. -/
def puStep (s : PUState) (line : List Char) (rest : List (List Char)) : PUState :=
  if lineStarts line "diff --git" = true ∨ lineStarts line "index " = true ∨
      lineStarts line "---" = true ∨ lineStarts line "+++" = true then
    s
  else
    match parseHunkHeader line with
    | some target =>
      -- close out any active added range, then reset to the 0-based target
      let s₁ :=
        match s.currentAddedRange with
        | some r => { s with added := s.added ++ [r], currentAddedRange := none }
        | none => s
      { s₁ with targetLineNum := target - 1 }
    | none =>
      if lineStarts line "+" = true ∧ ¬ lineStarts line "+++" = true then
        let s₁ :=
          match s.currentAddedRange with
          | none => { s with currentAddedRange := some ⟨s.targetLineNum, s.targetLineNum⟩ }
          | some r =>
            if r.endLine = s.targetLineNum - 1 then
              { s with currentAddedRange := some ⟨r.startLine, s.targetLineNum⟩ }
            else
              { s with added := s.added ++ [r],
                       currentAddedRange := some ⟨s.targetLineNum, s.targetLineNum⟩ }
        { s₁ with targetLineNum := s₁.targetLineNum + 1 }
      else if lineStarts line "-" = true ∧ ¬ lineStarts line "---" = true then
        if lookaheadPlus rest = true then
          { s with changed := s.changed ++ [s.targetLineNum] }
        else if s.targetLineNum ∈ s.removed then s
        else { s with removed := s.removed ++ [s.targetLineNum] }
      else
        -- non plus/minus line: finalize any in-progress added range,
        -- then treat as a context line
        let s₁ :=
          match s.currentAddedRange with
          | some r => { s with added := s.added ++ [r], currentAddedRange := none }
          | none => s
        if ¬ lineStarts line "+" = true ∧ ¬ lineStarts line "-" = true then
          { s₁ with targetLineNum := s₁.targetLineNum + 1 }
        else s₁

/-- The loop of parseUnifiedDiff over the split lines of the diff text. -/
def puLoop (s : PUState) : List (List Char) → PUState
  | [] => s
  | l :: ls => puLoop (puStep s l ls) ls

/-- The unified-diff parser: split the diff text at newlines, run the pass,
and close out an unfinished added range.  The created collection is never
populated here. -/
def parseUnifiedDiff (diffText : String) : ClassificationResult :=
  let lines := splitOnNl diffText.toList
  let s := puLoop ⟨[], [], [], 0, none⟩ lines
  let added :=
    match s.currentAddedRange with
    | some r => s.added ++ [r]
    | none => s.added
  ⟨added, s.removed, s.changed, []⟩

/-- The unified-diff front end of the engine. -/
def classifyFromUnifiedDiff (diffText : String) : ClassificationResult :=
  parseUnifiedDiff diffText

/-! ## The line-diff producer and the two front ends -/

/-- Tokenize a normalized text into its lines, each line keeping its trailing
newline; a final segment without a newline is kept as is. -/
def tokenizeLines (cs : List Char) : List (List Char) :=
  if cs = [] then []
  else
    let parts := splitOnNl cs
    let front := parts.dropLast.map (fun p => p ++ ['\n'])
    match parts.getLast? with
    | some [] => front
    | some l => front ++ [l]
    | none => front

/-- Drop a trailing newline from a line token. -/
def stripNl (cs : List Char) : List Char :=
  match cs.getLast? with
  | some '\n' => cs.dropLast
  | _ => cs

/-- Line-token equality ignoring a trailing newline, the comparison the
line differ uses when a missing newline at the end of the file is ignored. -/
def eqTok (a b : List Char) : Bool :=
  stripNl a = stripNl b

/-- One entry of the edit script: a line kept, inserted, or deleted. -/
inductive Edit where
  | keep (tok : List Char)
  | ins (tok : List Char)
  | del (tok : List Char)
deriving DecidableEq, Repr

/-- Length of a longest common subsequence of two token lists, with explicit
fuel so that the definition evaluates by structural recursion. -/
def lcsLen : Nat → List (List Char) → List (List Char) → Nat
  | _, [], _ => 0
  | _, _ :: _, [] => 0
  | 0, _ :: _, _ :: _ => 0
  | fuel + 1, a :: as, b :: bs =>
    if eqTok a b = true then lcsLen fuel as bs + 1
    else Nat.max (lcsLen fuel (a :: as) bs) (lcsLen fuel as (b :: bs))

/-- An LCS edit script between the old and the new token lists, emitting
deletions before the insertions they are paired with, as the line differ
does.  The fuel is the sum of the two lengths. -/
def diffScript : Nat → List (List Char) → List (List Char) → List Edit
  | _, [], news => news.map Edit.ins
  | _, old@(_ :: _), [] => old.map Edit.del
  | 0, _ :: _, _ :: _ => []
  | fuel + 1, a :: as, b :: bs =>
    if eqTok a b = true then Edit.keep b :: diffScript fuel as bs
    else if lcsLen ((a :: as).length + bs.length) (a :: as) bs ≤
            lcsLen (as.length + (b :: bs).length) as (b :: bs) then
      Edit.del a :: diffScript fuel as (b :: bs)
    else
      Edit.ins b :: diffScript fuel (a :: as) bs

/-- The run carrying one edit-script entry. -/
def editChange : Edit → Change
  | .keep tok => ⟨⟨tok⟩, false, false⟩
  | .ins tok => ⟨⟨tok⟩, true, false⟩
  | .del tok => ⟨⟨tok⟩, false, true⟩

/-- Merge consecutive same-tagged script entries into maximal runs. -/
def mergeRuns : List Edit → List Change
  | [] => []
  | e :: es =>
    let c := editChange e
    match mergeRuns es with
    | [] => [c]
    | c' :: cs =>
      if c.added = c'.added ∧ c.removed = c'.removed then
        ⟨c.value ++ c'.value, c'.added, c'.removed⟩ :: cs
      else c :: c' :: cs

/-- Modelled from the spec: the line-diff producer (section 4.1), which the
source delegates to the external line-diff library with carriage returns
stripped and a missing newline at the end of the file ignored.  It produces
ordered runs tagged unchanged, inserted, or deleted via a
longest-common-subsequence line diff; deletions precede the insertions they
are paired with, and adjacent same-tagged lines are merged into one run. -/
def diffLines (base current : String) : List Change :=
  let old := tokenizeLines (replaceCrLf base.toList)
  let new := tokenizeLines (replaceCrLf current.toList)
  mergeRuns (diffScript (old.length + new.length) old new)

/-- The texts front end of the engine: line diff plus the run classifier. -/
def classifyFromTexts (base current : String) : ClassificationResult :=
  processDiffResult (diffLines base current)

/-- The input situations computeDiffForFileAsync distinguishes, with the
IO and editor plumbing abstracted away: no usable base, an in-memory
snapshot base, a base absent at the resolved reference (the new-file
shortcut), a base present at the reference, or only a textual git diff
(no open editor). -/
inductive DiffSource where
  | noBase
  | snapshot (runs : List Change)
  | baseAbsent (currentLineCount : Int)
  | basePresent (runs : List Change)
  | gitDiff (diffText : String)
deriving DecidableEq, Repr

/-- The decision structure of computeDiffForFileAsync: the new-file shortcut
returns a single created range covering the whole current file; every other
path returns an empty result or defers to one of the two front ends. -/
def computeDiffForFile : DiffSource → ClassificationResult
  | .noBase => ⟨[], [], [], []⟩
  | .snapshot runs => processDiffResult runs
  | .baseAbsent currentLineCount => ⟨[], [], [], [⟨0, currentLineCount - 1⟩]⟩
  | .basePresent runs => processDiffResult runs
  | .gitDiff diffText => parseUnifiedDiff diffText

/-- The open added range appended to the pushed ones: the added ranges the
classifier would report if it stopped now. -/
def addedList (s : PDState) : List DiffRange :=
  s.added ++ s.currentAddedRange.toList

/-- No range of the list ends exactly one line before another starts. -/
def NonAdjAll (l : List DiffRange) : Prop :=
  ∀ a ∈ l, ∀ b ∈ l, a.endLine + 1 ≠ b.startLine

/-- A run sequence as the line-diff producer emits it: no two consecutive
runs are both inserted and no two are both deleted. -/
def altOk : List Change → Bool
  | [] => true
  | [_] => true
  | a :: b :: rest =>
    (decide (¬(a.added = true ∧ b.added = true)) &&
     decide (¬(a.removed = true ∧ b.removed = true))) && altOk (b :: rest)

/-- The stable facts the classifier pass maintains about its state. -/
structure CoreInv (s : PDState) : Prop where
  lineNonneg : 0 ≤ s.lineNumber
  addedBound : ∀ r ∈ addedList s, r.startLine ≤ r.endLine ∧ r.endLine < s.lineNumber
  addedNonAdj : NonAdjAll (addedList s)
  removedNodup : s.removed.Nodup
  removedBound : ∀ x ∈ s.removed, x ≤ s.lineNumber
  changedNodup : s.changed.Nodup
  changedBound : ∀ x ∈ s.changed, x < s.lineNumber
  remAdd : ∀ x ∈ s.removed, ∀ r ∈ addedList s, ¬(r.startLine ≤ x ∧ x ≤ r.endLine)
  chgAdd : ∀ x ∈ s.changed, ∀ r ∈ addedList s, ¬(r.startLine ≤ x ∧ x ≤ r.endLine)
  remChg : ∀ x ∈ s.removed, x ∉ s.changed


/-! ## Claim theorems: run-classifier step behavior -/

/-- Claim C1: in the run classifier, an inserted run that follows pending
deletions yields exactly the minimum of the inserted and removed counts of
changed anchors at consecutive positions starting at the recorded removedAt,
and, when the inserted count exceeds the removed count, one additional added
range immediately after the matched changed lines covering exactly the excess
inserted lines; in particular the quoted texts classify to one changed anchor
at line 1 and the added range from 2 to 2. -/
theorem c1_change_run_classification (s : PDState) (part : Change) (nextPart : Option Change)
    (hadd : part.added = true) (hrc : 0 < s.removedLineCount) (hra : 0 ≤ s.removedAt)
    (hline : s.removedAt = s.lineNumber) :
    (pdStep s part nextPart).changed =
      s.changed ++ (List.range (Nat.min (lineCountOf part.value) s.removedLineCount)).map
        (fun (i : Nat) => s.removedAt + (i : Int)) ∧
    (s.removedLineCount < lineCountOf part.value →
      (pdStep s part nextPart).added =
        s.added ++ [⟨s.removedAt + (s.removedLineCount : Int),
                     s.removedAt + (lineCountOf part.value : Int) - 1⟩]) ∧
    (lineCountOf part.value ≤ s.removedLineCount →
      (pdStep s part nextPart).added = s.added) ∧
    classifyFromTexts "a\nb\nc\n" "a\nX\nY\nc\n" = ⟨[⟨2, 2⟩], [], [1], []⟩ := by
  refine ⟨?_, ?_, ?_, by decide⟩
  · simp [pdStep, hadd, hrc, hra]
  · intro hlt
    simp [pdStep, hadd, hrc, hra, hlt, ← hline]
  · intro hle
    simp [pdStep, hadd, hrc, hra, Nat.not_lt.mpr hle]

/-- Claim C1 witness at a concrete pending-deletion state and inserted run. -/
theorem c1_witness :
    (pdStep ⟨[], [], [], 1, none, 1, 1⟩ ⟨"X\nY\n", true, false⟩ none).changed =
      ([] : List Int) ++ (List.range (Nat.min (lineCountOf "X\nY\n") 1)).map
        (fun (i : Nat) => (1 : Int) + (i : Int)) ∧
    (1 < lineCountOf "X\nY\n" →
      (pdStep ⟨[], [], [], 1, none, 1, 1⟩ ⟨"X\nY\n", true, false⟩ none).added =
        ([] : List DiffRange) ++ [⟨(1 : Int) + ((1 : Nat) : Int),
                                   (1 : Int) + (lineCountOf "X\nY\n" : Int) - 1⟩]) ∧
    (lineCountOf "X\nY\n" ≤ 1 →
      (pdStep ⟨[], [], [], 1, none, 1, 1⟩ ⟨"X\nY\n", true, false⟩ none).added = []) ∧
    classifyFromTexts "a\nb\nc\n" "a\nX\nY\nc\n" = ⟨[⟨2, 2⟩], [], [1], []⟩ :=
  c1_change_run_classification ⟨[], [], [], 1, none, 1, 1⟩ ⟨"X\nY\n", true, false⟩ none
    rfl (by decide) (by decide) rfl

/-- Claim C2: in the run classifier, a deleted run that is not followed by an
inserted run produces exactly one removed anchor, placed at the current-file
position recorded when the deletion was seen, regardless of how many lines
were deleted, and changes nothing else; in particular deleting two interior
lines yields exactly one removed anchor at line 1. -/
theorem c2_pure_removal (s : PDState) (part : Change) (nextPart : Option Change)
    (hrem : part.removed = true) (hnadd : part.added = false)
    (hrc : s.removedLineCount = 0)
    (hnext : ∀ c, nextPart = some c → c.added = false) :
    (pdStep s part nextPart).removed = s.removed ++ [s.lineNumber] ∧
    (pdStep s part nextPart).added = s.added ∧
    (pdStep s part nextPart).changed = s.changed ∧
    (pdStep s part nextPart).lineNumber = s.lineNumber ∧
    (pdStep s part nextPart).currentAddedRange = s.currentAddedRange ∧
    (pdStep s part nextPart).removedLineCount = 0 ∧
    classifyFromTexts "a\nb\nc\nd\n" "a\nd\n" = ⟨[], [1], [], []⟩ := by
  have hcond : ¬ (part.added = true ∧ 0 < s.removedLineCount ∧ 0 ≤ s.removedAt) := by
    simp [hnadd]
  cases nextPart with
  | none =>
    refine ⟨?_, ?_, ?_, ?_, ?_, ?_, by decide⟩ <;>
      simp [pdStep, hcond, hnadd, hrem, hrc]
  | some np =>
    have hnp : np.added = false := hnext np rfl
    refine ⟨?_, ?_, ?_, ?_, ?_, ?_, by decide⟩ <;>
      simp [pdStep, hcond, hnadd, hrem, hrc, hnp]

/-- Claim C2 witness at a concrete state and two-line deleted run followed by
an unchanged run. -/
theorem c2_witness :
    (pdStep ⟨[], [], [], 1, none, 0, -1⟩ ⟨"b\nc\n", false, true⟩
        (some ⟨"d\n", false, false⟩)).removed = ([] : List Int) ++ [(1 : Int)] ∧
    (pdStep ⟨[], [], [], 1, none, 0, -1⟩ ⟨"b\nc\n", false, true⟩
        (some ⟨"d\n", false, false⟩)).added = [] ∧
    (pdStep ⟨[], [], [], 1, none, 0, -1⟩ ⟨"b\nc\n", false, true⟩
        (some ⟨"d\n", false, false⟩)).changed = [] ∧
    (pdStep ⟨[], [], [], 1, none, 0, -1⟩ ⟨"b\nc\n", false, true⟩
        (some ⟨"d\n", false, false⟩)).lineNumber = 1 ∧
    (pdStep ⟨[], [], [], 1, none, 0, -1⟩ ⟨"b\nc\n", false, true⟩
        (some ⟨"d\n", false, false⟩)).currentAddedRange = none ∧
    (pdStep ⟨[], [], [], 1, none, 0, -1⟩ ⟨"b\nc\n", false, true⟩
        (some ⟨"d\n", false, false⟩)).removedLineCount = 0 ∧
    classifyFromTexts "a\nb\nc\nd\n" "a\nd\n" = ⟨[], [1], [], []⟩ :=
  c2_pure_removal ⟨[], [], [], 1, none, 0, -1⟩ ⟨"b\nc\n", false, true⟩
    (some ⟨"d\n", false, false⟩) rfl rfl rfl
    (fun c hc => by cases Option.some.inj hc; rfl)

/-- Claim C7: after the pass, a final single-line added entry at the very
last line of the current file is discarded when the last run overall is an
insertion whose text is empty or a lone newline sequence; consequently a
base/current pair differing only by a final trailing newline classifies with
all collections empty. -/
theorem c7_eof_artifact (runs : List Change) (r : DiffRange) (lastPart : Change)
    (h1 : (pdFinalize (pdLoop initPD runs)).added.getLast? = some r)
    (h2 : r.startLine = r.endLine)
    (h3 : r.startLine = (pdFinalize (pdLoop initPD runs)).lineNumber - 1)
    (h4 : runs.getLast? = some lastPart)
    (h5 : lastPart.added = true)
    (h6 : lastPart.value = "\n" ∨ lastPart.value = "\r\n" ∨ lastPart.value = "") :
    (processDiffResult runs).added = (pdFinalize (pdLoop initPD runs)).added.dropLast ∧
    classifyFromTexts "a\nb\n" "a\nb" = ⟨[], [], [], []⟩ ∧
    classifyFromTexts "a\nb" "a\nb\n" = ⟨[], [], [], []⟩ := by
  refine ⟨?_, by decide, by decide⟩
  show suppressEof _ _ _ = _
  simp only [suppressEof, h1, h4]
  rw [if_pos ⟨h2, h3⟩, if_pos ⟨h5, h6⟩]

/-- Claim C7 witness: an unchanged run followed by a newline-only insertion
has its trailing one-line added entry discarded. -/
theorem c7_witness :
    (processDiffResult [⟨"a\n", false, false⟩, ⟨"\n", true, false⟩]).added =
      (pdFinalize (pdLoop initPD [⟨"a\n", false, false⟩, ⟨"\n", true, false⟩])).added.dropLast ∧
    classifyFromTexts "a\nb\n" "a\nb" = ⟨[], [], [], []⟩ ∧
    classifyFromTexts "a\nb" "a\nb\n" = ⟨[], [], [], []⟩ :=
  c7_eof_artifact [⟨"a\n", false, false⟩, ⟨"\n", true, false⟩] ⟨1, 1⟩ ⟨"\n", true, false⟩
    (by decide) rfl (by decide) rfl rfl (Or.inl rfl)

/-! ## Claim theorems: caller paths and the created collection -/

/-- Claim C8: when the base file is absent at the reference, the result is
exactly one created range covering the whole current file with the other
collections empty, and on every call path a non-empty created never coexists
with a non-empty added, removed, or changed collection. -/
theorem c8_new_file_shortcut (lineCount : Int) (src : DiffSource)
    (h : (computeDiffForFile src).created ≠ []) :
    computeDiffForFile (.baseAbsent lineCount) = ⟨[], [], [], [⟨0, lineCount - 1⟩]⟩ ∧
    (computeDiffForFile src).added = [] ∧ (computeDiffForFile src).removed = [] ∧
    (computeDiffForFile src).changed = [] := by
  refine ⟨rfl, ?_⟩
  cases src with
  | noBase => exact absurd rfl h
  | snapshot runs => exact absurd rfl h
  | baseAbsent n => exact ⟨rfl, rfl, rfl⟩
  | basePresent runs => exact absurd rfl h
  | gitDiff t => exact absurd rfl h

/-- Claim C8 witness at a five-line current file with an absent base. -/
theorem c8_witness :
    computeDiffForFile (.baseAbsent 5) = ⟨[], [], [], [⟨0, (5 : Int) - 1⟩]⟩ ∧
    (computeDiffForFile (.baseAbsent 5)).added = [] ∧
    (computeDiffForFile (.baseAbsent 5)).removed = [] ∧
    (computeDiffForFile (.baseAbsent 5)).changed = [] :=
  c8_new_file_shortcut 5 (.baseAbsent 5) (by decide)

/-- Claim C9: the unified-diff parser is claimed total and graceful, but on
the standard diff of a file whose lines are all deleted (a hunk header with
target position 0) it computes the target cursor -1 and emits a removed
anchor at line -1, an invalid editor position: constructing the zero-width
editor range at that line throws in the source instead of returning a
result. -/
theorem c9_negative_anchor_on_empty_target :
    (parseUnifiedDiff "--- a/f\n+++ b/f\n@@ -1,2 +0,0 @@\n-a\n-b\n").removed = [-1] := by
  decide

/-- Claim C10: neither front end ever populates the created collection; only
the absent-base caller branch produces a non-empty created. -/
theorem c10_created_only_from_shortcut (runs : List Change) (t : String)
    (src : DiffSource) (h : (computeDiffForFile src).created ≠ []) :
    (processDiffResult runs).created = [] ∧
    (classifyFromUnifiedDiff t).created = [] ∧
    ∃ n, src = .baseAbsent n := by
  refine ⟨rfl, rfl, ?_⟩
  cases src with
  | noBase => exact absurd rfl h
  | snapshot runs => exact absurd rfl h
  | baseAbsent n => exact ⟨n, rfl⟩
  | basePresent runs => exact absurd rfl h
  | gitDiff t => exact absurd rfl h

/-- Claim C10 witness at an empty run list, empty diff text, and the
absent-base source. -/
theorem c10_witness :
    (processDiffResult []).created = [] ∧
    (classifyFromUnifiedDiff "").created = [] ∧
    ∃ n, (DiffSource.baseAbsent 3) = DiffSource.baseAbsent n :=
  c10_created_only_from_shortcut [] "" (.baseAbsent 3) (by decide)

/-! ## Claim theorems: the two front ends compared -/

/-- Claim C3 counterexample: for the pair replacing two interior lines by
one, the texts front end reports no removed anchor and no added range, while
the parser on the standard unified diff of the same pair reports a removed
anchor at line 1 and an added range at line 1 — the two front ends are not
equivalent. -/
theorem c3_counterexample :
    (classifyFromTexts "a\nb\nc\nd\n" "a\nX\nd\n").removed = [] ∧
    (classifyFromTexts "a\nb\nc\nd\n" "a\nX\nd\n").added = [] ∧
    (parseUnifiedDiff "--- a/f\n+++ b/f\n@@ -1,4 +1,3 @@\n a\n-b\n-c\n+X\n d\n").removed
      = [1] ∧
    (parseUnifiedDiff "--- a/f\n+++ b/f\n@@ -1,4 +1,3 @@\n a\n-b\n-c\n+X\n d\n").added
      = [⟨1, 1⟩] := by
  decide

/-- Claim C3 amended: the two front ends are not equivalent.  On the spec's
concrete pure-insertion pair and pure-deletion pair, each fed the standard
unified diff of the same pair, the results coincide exactly; but on the
modification pair replacing two interior lines by one, the parser emits a
removed anchor and an added range at line 1 that the run classifier does
not, while agreeing on the changed anchor; on the modification replacing two
interior lines by three, the run classifier emits changed anchors 1 and 2
where the parser emits only 1; and on deleting every line of the file, the
run classifier anchors the removal at line 0 where the parser computes the
anchor -1. -/
theorem c3_amended_agreement :
    classifyFromTexts "a\nd\n" "a\nb\nc\nd\n" =
      parseUnifiedDiff "--- a/f\n+++ b/f\n@@ -1,2 +1,4 @@\n a\n+b\n+c\n d\n" ∧
    classifyFromTexts "a\nb\nc\nd\n" "a\nd\n" =
      parseUnifiedDiff "--- a/f\n+++ b/f\n@@ -1,4 +1,2 @@\n a\n-b\n-c\n d\n" ∧
    (classifyFromTexts "a\nb\nc\nd\n" "a\nX\nd\n").changed =
      (parseUnifiedDiff "--- a/f\n+++ b/f\n@@ -1,4 +1,3 @@\n a\n-b\n-c\n+X\n d\n").changed ∧
    (classifyFromTexts "a\nb\nc\nd\n" "a\nX\nd\n").removed = [] ∧
    (classifyFromTexts "a\nb\nc\nd\n" "a\nX\nd\n").added = [] ∧
    (parseUnifiedDiff "--- a/f\n+++ b/f\n@@ -1,4 +1,3 @@\n a\n-b\n-c\n+X\n d\n").added
      = [⟨1, 1⟩] ∧
    (parseUnifiedDiff "--- a/f\n+++ b/f\n@@ -1,4 +1,3 @@\n a\n-b\n-c\n+X\n d\n").removed
      = [1] ∧
    (classifyFromTexts "a\nb\nc\nd\n" "a\nX\nY\nZ\nd\n").changed = [1, 2] ∧
    (parseUnifiedDiff "--- a/f\n+++ b/f\n@@ -1,4 +1,5 @@\n a\n-b\n-c\n+X\n+Y\n+Z\n d\n").changed
      = [1] ∧
    (classifyFromTexts "a\nb\n" "").removed = [0] ∧
    (parseUnifiedDiff "--- a/f\n+++ b/f\n@@ -1,2 +0,0 @@\n-a\n-b\n").removed = [-1] := by
  decide


/-! ## Invariants of the run classifier -/

theorem splitOnNl_ne_nil (cs : List Char) : splitOnNl cs ≠ [] := by
  rw [splitOnNl.eq_def]
  split
  · simp
  · simp
  · split <;> simp

theorem splitOnNl_nl_cons (rest : List Char) :
    splitOnNl ('\n' :: rest) = [] :: splitOnNl rest := rfl

theorem splitOnNl_length_cons_ne (c : Char) (rest : List Char) (h : ¬ c = '\n') :
    (splitOnNl (c :: rest)).length = (splitOnNl rest).length := by
  rw [splitOnNl.eq_def]
  split
  · simp_all
  · next heq => simp only [List.cons.injEq] at heq; exact absurd heq.1 h
  · next c' rest' _ heq =>
    simp only [List.cons.injEq] at heq
    obtain ⟨rfl, rfl⟩ := heq
    split
    · next p ps heq2 => simp [heq2]
    · next heq2 => exact absurd heq2 (splitOnNl_ne_nil _)

theorem endsWithNl_cons_cons (c d : Char) (rest : List Char) :
    endsWithNl (c :: d :: rest) = endsWithNl (d :: rest) := by
  simp [endsWithNl, List.getLast?_cons_cons]

theorem splitOnNl_length_of_endsWithNl (cs : List Char) (h : endsWithNl cs = true) :
    2 ≤ (splitOnNl cs).length := by
  induction cs with
  | nil => simp [endsWithNl] at h
  | cons c rest ih =>
    cases rest with
    | nil =>
      have hc : c = '\n' := by
        by_contra hc
        simp [endsWithNl, List.getLast?_singleton] at h
        split at h
        · next heq => exact hc (Option.some.inj heq)
        · exact Bool.false_ne_true h
      subst hc
      simp [splitOnNl_nl_cons, splitOnNl]
    | cons d rest' =>
      have h' : endsWithNl (d :: rest') = true := by
        rw [← endsWithNl_cons_cons c d rest']; exact h
      have ih' := ih h'
      by_cases hc : c = '\n'
      · subst hc
        rw [splitOnNl_nl_cons]
        simp
        omega
      · rw [splitOnNl_length_cons_ne c _ hc]
        exact ih'

/-- Every run counts at least one line. -/
theorem lineCountOf_pos (value : String) : 0 < lineCountOf value := by
  unfold lineCountOf
  set n := replaceCrLf value.toList with hn
  by_cases h : endsWithNl n = true
  · have := splitOnNl_length_of_endsWithNl n h
    simp [h]; omega
  · have := splitOnNl_ne_nil n
    have hlen : 0 < (splitOnNl n).length := List.length_pos.mpr this
    simp [h]; omega

theorem altOk_cons (part : Change) (rest : List Change) (h : altOk (part :: rest) = true) :
    altOk rest = true ∧
    (∀ c, rest.head? = some c →
      ¬(part.added = true ∧ c.added = true) ∧ ¬(part.removed = true ∧ c.removed = true)) := by
  cases rest with
  | nil => exact ⟨rfl, by intro c hc; cases hc⟩
  | cons b bs =>
    simp only [altOk, Bool.and_eq_true, decide_eq_true_eq] at h
    exact ⟨h.2, by intro c hc; cases Option.some.inj hc; exact ⟨h.1.1, h.1.2⟩⟩

theorem nonAdjAll_append (l : List DiffRange) (x : DiffRange)
    (hl : NonAdjAll l)
    (h1 : ∀ a ∈ l, a.endLine + 1 ≠ x.startLine)
    (h2 : ∀ b ∈ l, x.endLine + 1 ≠ b.startLine)
    (hx : x.endLine + 1 ≠ x.startLine) :
    NonAdjAll (l ++ [x]) := by
  intro a ha b hb
  rcases List.mem_append.mp ha with ha | ha <;>
    rcases List.mem_append.mp hb with hb | hb
  · exact hl a ha b hb
  · rw [List.mem_singleton.mp hb]; exact h1 a ha
  · rw [List.mem_singleton.mp ha]; exact h2 b hb
  · rw [List.mem_singleton.mp ha, List.mem_singleton.mp hb]; exact hx

theorem nodup_append_singleton {x : Int} {l : List Int} (hl : l.Nodup) (hx : x ∉ l) :
    (l ++ [x]).Nodup :=
  List.Nodup.append hl (List.nodup_singleton x)
    (fun a ha hb => by rw [List.mem_singleton.mp hb] at ha; exact hx ha)

/-- Invariant transfer for a pure addition: the line cursor advances by the
(positive) inserted line count and a fresh range covering exactly the
inserted lines is opened, strictly beyond every earlier range. -/
theorem pureAddInv (s s' : PDState) (L : Int) (hLpos : 1 ≤ L)
    (hline : s'.lineNumber = s.lineNumber + L)
    (hrem : s'.removed = s.removed) (hchg : s'.changed = s.changed)
    (hal : ∀ q, q ∈ addedList s' ↔
      q ∈ addedList s ∨ q = ⟨s.lineNumber, s.lineNumber + L - 1⟩)
    (hinv : CoreInv s)
    (hstrict : ∀ x ∈ s.removed, x < s.lineNumber)
    (hgap : ∀ r ∈ addedList s, r.endLine + 1 < s.lineNumber) :
    CoreInv s' := by
  refine ⟨?_, ?_, ?_, ?_, ?_, ?_, ?_, ?_, ?_, ?_⟩
  · rw [hline]
    have := hinv.lineNonneg
    omega
  · intro q hq
    rw [hline]
    rcases (hal q).mp hq with h | h
    · have h2 := hinv.addedBound q h
      exact ⟨h2.1, by omega⟩
    · subst h
      constructor
      · show s.lineNumber ≤ s.lineNumber + L - 1
        omega
      · show s.lineNumber + L - 1 < s.lineNumber + L
        omega
  · intro a ha b hb
    rcases (hal a).mp ha with h | h <;> rcases (hal b).mp hb with h2 | h2
    · exact hinv.addedNonAdj a h b h2
    · subst h2
      show a.endLine + 1 ≠ s.lineNumber
      have := hgap a h
      omega
    · subst h
      show s.lineNumber + L - 1 + 1 ≠ b.startLine
      have h3 := (hinv.addedBound b h2).1
      have h4 := (hinv.addedBound b h2).2
      omega
    · subst h; subst h2
      show s.lineNumber + L - 1 + 1 ≠ s.lineNumber
      omega
  · rw [hrem]; exact hinv.removedNodup
  · rw [hrem, hline]
    intro x hx
    have := hinv.removedBound x hx
    omega
  · rw [hchg]; exact hinv.changedNodup
  · rw [hchg, hline]
    intro x hx
    have := hinv.changedBound x hx
    omega
  · rw [hrem]
    intro x hx q hq
    rcases (hal q).mp hq with h | h
    · exact hinv.remAdd x hx q h
    · subst h
      have := hstrict x hx
      show ¬(s.lineNumber ≤ x ∧ x ≤ s.lineNumber + L - 1)
      omega
  · rw [hchg]
    intro x hx q hq
    rcases (hal q).mp hq with h | h
    · exact hinv.chgAdd x hx q h
    · subst h
      have := hinv.changedBound x hx
      show ¬(s.lineNumber ≤ x ∧ x ≤ s.lineNumber + L - 1)
      omega
  · rw [hrem, hchg]; exact hinv.remChg

/-- Invariant transfer for a modification: the changed anchors gain a block
of consecutive positions at the line cursor, the line cursor advances by the
(positive) inserted count, and the added ranges either stay or gain the
excess range strictly after the new anchors. -/
theorem changeInv (s s' : PDState) (L : Int) (m : Nat)
    (hLpos : 1 ≤ L) (hmL : (m : Int) ≤ L)
    (hline : s'.lineNumber = s.lineNumber + L)
    (hrem : s'.removed = s.removed)
    (hchg : s'.changed = s.changed ++
      (List.range m).map (fun (i : Nat) => s.lineNumber + (i : Int)))
    (hinv : CoreInv s)
    (hstrict : ∀ x ∈ s.removed, x < s.lineNumber)
    (haddedEq : (∀ q, q ∈ addedList s' ↔ q ∈ addedList s) ∨
      ∃ rc : Nat, 0 < rc ∧ (m : Int) ≤ (rc : Int) ∧ (rc : Int) < L ∧
        (∀ q, q ∈ addedList s' ↔ q ∈ addedList s ∨
          q = ⟨s.lineNumber + (rc : Int), s.lineNumber + L - 1⟩)) :
    CoreInv s' := by
  have hbatch : ∀ x ∈ (List.range m).map (fun (i : Nat) => s.lineNumber + (i : Int)),
      s.lineNumber ≤ x ∧ x < s.lineNumber + (m : Int) := by
    intro x hx
    simp only [List.mem_map, List.mem_range] at hx
    obtain ⟨i, hi, rfl⟩ := hx
    omega
  refine ⟨?_, ?_, ?_, ?_, ?_, ?_, ?_, ?_, ?_, ?_⟩
  · rw [hline]
    have := hinv.lineNonneg
    omega
  · intro q hq
    rw [hline]
    rcases haddedEq with hiff | ⟨rc, hrc, hmrc, hrcL, hiff⟩
    · have h2 := hinv.addedBound q ((hiff q).mp hq)
      exact ⟨h2.1, by omega⟩
    · rcases (hiff q).mp hq with h | h
      · have h2 := hinv.addedBound q h
        exact ⟨h2.1, by omega⟩
      · subst h
        constructor
        · show s.lineNumber + (rc : Int) ≤ s.lineNumber + L - 1
          omega
        · show s.lineNumber + L - 1 < s.lineNumber + L
          omega
  · intro a ha b hb
    rcases haddedEq with hiff | ⟨rc, hrc, hmrc, hrcL, hiff⟩
    · exact hinv.addedNonAdj a ((hiff a).mp ha) b ((hiff b).mp hb)
    · rcases (hiff a).mp ha with h | h <;> rcases (hiff b).mp hb with h2 | h2
      · exact hinv.addedNonAdj a h b h2
      · subst h2
        show a.endLine + 1 ≠ s.lineNumber + (rc : Int)
        have := (hinv.addedBound a h).2
        omega
      · subst h
        show s.lineNumber + L - 1 + 1 ≠ b.startLine
        have h3 := (hinv.addedBound b h2).1
        have h4 := (hinv.addedBound b h2).2
        omega
      · subst h; subst h2
        show s.lineNumber + L - 1 + 1 ≠ s.lineNumber + (rc : Int)
        omega
  · rw [hrem]; exact hinv.removedNodup
  · rw [hrem, hline]
    intro x hx
    have := hinv.removedBound x hx
    omega
  · rw [hchg]
    refine List.Nodup.append hinv.changedNodup ?_ ?_
    · have hinj : Function.Injective (fun i : Nat => s.lineNumber + (i : Int)) := by
        intro a b hab
        simp only at hab
        omega
      exact List.Nodup.map hinj (List.nodup_range m)
    · intro a ha hb
      have h1 := hinv.changedBound a ha
      have h2 := (hbatch a hb).1
      omega
  · rw [hchg, hline]
    intro x hx
    rcases List.mem_append.mp hx with h | h
    · have := hinv.changedBound x h
      omega
    · have := (hbatch x h).2
      omega
  · rw [hrem]
    intro x hx q hq
    rcases haddedEq with hiff | ⟨rc, hrc, hmrc, hrcL, hiff⟩
    · exact hinv.remAdd x hx q ((hiff q).mp hq)
    · rcases (hiff q).mp hq with h | h
      · exact hinv.remAdd x hx q h
      · subst h
        have := hstrict x hx
        show ¬(s.lineNumber + (rc : Int) ≤ x ∧ x ≤ s.lineNumber + L - 1)
        omega
  · rw [hchg]
    intro x hx q hq
    rcases List.mem_append.mp hx with hxo | hxb
    · rcases haddedEq with hiff | ⟨rc, hrc, hmrc, hrcL, hiff⟩
      · exact hinv.chgAdd x hxo q ((hiff q).mp hq)
      · rcases (hiff q).mp hq with h | h
        · exact hinv.chgAdd x hxo q h
        · subst h
          have := hinv.changedBound x hxo
          show ¬(s.lineNumber + (rc : Int) ≤ x ∧ x ≤ s.lineNumber + L - 1)
          omega
    · have hxb2 := hbatch x hxb
      rcases haddedEq with hiff | ⟨rc, hrc, hmrc, hrcL, hiff⟩
      · have := (hinv.addedBound q ((hiff q).mp hq)).2
        omega
      · rcases (hiff q).mp hq with h | h
        · have := (hinv.addedBound q h).2
          omega
        · subst h
          show ¬(s.lineNumber + (rc : Int) ≤ x ∧ x ≤ s.lineNumber + L - 1)
          omega
  · rw [hrem, hchg]
    intro x hx
    intro hmem
    rcases List.mem_append.mp hmem with h | h
    · exact hinv.remChg x hx h
    · have h1 := hstrict x hx
      have h2 := (hbatch x h).1
      omega

/-- The master induction: on a producer-wellformed run sequence the
classifier pass preserves its core invariants and finishes with no pending
deletion. -/
theorem pdLoop_master (runs : List Change) :
    ∀ (s : PDState) (pa pr pp : Bool),
      altOk runs = true →
      (pa = true → ∀ c, runs.head? = some c → c.added = false) →
      (pr = true → ∀ c, runs.head? = some c → c.removed = false) →
      (pp = true → ∀ c, runs.head? = some c → c.added = false) →
      (pr = true → pa = true ∨ pp = true ∨ 0 < s.removedLineCount) →
      (0 < s.removedLineCount →
        (∃ c, runs.head? = some c ∧ c.added = true) ∧
        s.removedAt = s.lineNumber ∧ (∀ x ∈ s.removed, x < s.lineNumber)) →
      CoreInv s →
      (pr = false → ∀ x ∈ s.removed, x < s.lineNumber) →
      (pa = false → pr = false → ∀ r ∈ addedList s, r.endLine + 1 < s.lineNumber) →
      CoreInv (pdLoop s runs) ∧ (pdLoop s runs).removedLineCount = 0 := by
  induction runs with
  | nil =>
    intro s pa pr pp _ _ _ _ _ hco hinv _ _
    refine ⟨hinv, ?_⟩
    by_contra h
    have hpos : 0 < s.removedLineCount := Nat.pos_of_ne_zero (by simpa [pdLoop] using h)
    obtain ⟨⟨c, hc, _⟩, _, _⟩ := hco hpos
    cases hc
  | cons part rest ih =>
    intro s pa pr pp halt hpa hpr hpp hflag hco hinv hcondA hcondB
    obtain ⟨halt', hrel⟩ := altOk_cons part rest halt
    rw [pdLoop]
    set L : Int := (lineCountOf part.value : Int) with hL
    have hLpos : 1 ≤ L := by
      have := lineCountOf_pos part.value
      omega
    by_cases hc1 : part.added = true ∧ 0 < s.removedLineCount ∧ 0 ≤ s.removedAt
    · -- change case
      obtain ⟨hadd, hrcpos, hranm⟩ := hc1
      obtain ⟨⟨c, hch, -⟩, hra, hstrict⟩ := hco hrcpos
      have hpa' : ∀ c, rest.head? = some c → c.added = false := by
        intro c hc
        have := (hrel c hc).1
        cases hca : c.added
        · rfl
        · exact absurd ⟨hadd, hca⟩ this
      have hpr' : part.removed = true → ∀ c, rest.head? = some c → c.removed = false := by
        intro h c hc
        have := (hrel c hc).2
        cases hcr : c.removed
        · rfl
        · exact absurd ⟨h, hcr⟩ this
      by_cases hlt : s.removedLineCount < lineCountOf part.value
      · have hstep : pdStep s part rest.head? =
            ⟨s.added ++ [⟨s.lineNumber + (s.removedLineCount : Int), s.lineNumber + L - 1⟩],
             s.removed,
             s.changed ++ (List.range s.removedLineCount).map
               (fun (i : Nat) => s.lineNumber + (i : Int)),
             s.lineNumber + L, s.currentAddedRange, 0, -1⟩ := by
          simp [pdStep, hadd, hrcpos, hranm, hra, hinv.lineNonneg, hlt,
            Nat.min_eq_right (Nat.le_of_lt hlt), hL]
        have hiff : ∀ q, q ∈ addedList
            ⟨s.added ++ [⟨s.lineNumber + (s.removedLineCount : Int), s.lineNumber + L - 1⟩],
             s.removed,
             s.changed ++ (List.range s.removedLineCount).map
               (fun (i : Nat) => s.lineNumber + (i : Int)),
             s.lineNumber + L, s.currentAddedRange, 0, -1⟩ ↔
            q ∈ addedList s ∨
              q = ⟨s.lineNumber + (s.removedLineCount : Int), s.lineNumber + L - 1⟩ := by
          intro q
          simp only [addedList]
          constructor
          · intro hq
            rcases List.mem_append.mp hq with h1 | h2
            · rcases List.mem_append.mp h1 with ha | he
              · exact Or.inl (List.mem_append.mpr (Or.inl ha))
              · exact Or.inr (List.mem_singleton.mp he)
            · exact Or.inl (List.mem_append.mpr (Or.inr h2))
          · intro hq
            rcases hq with h | h
            · rcases List.mem_append.mp h with ha | hc
              · exact List.mem_append.mpr (Or.inl (List.mem_append.mpr (Or.inl ha)))
              · exact List.mem_append.mpr (Or.inr hc)
            · exact List.mem_append.mpr
                (Or.inl (List.mem_append.mpr (Or.inr (List.mem_singleton.mpr h))))
        rw [hstep]
        refine ih _ true part.removed false halt' (fun _ => hpa') hpr' ?_ ?_ ?_ ?_ ?_ ?_
        · intro h; exact absurd h (by decide)
        · intro _; exact Or.inl rfl
        · intro h; exact absurd (Nat.lt_irrefl 0 h) (by simp)
        · refine changeInv s _ L s.removedLineCount hLpos ?_ rfl rfl rfl hinv hstrict ?_
          · rw [hL]
            exact_mod_cast Nat.le_of_lt hlt
          · refine Or.inr ⟨s.removedLineCount, hrcpos, le_refl _, ?_, hiff⟩
            rw [hL]
            exact_mod_cast hlt
        · intro _ x hx
          show x < s.lineNumber + L
          have := hinv.removedBound x hx
          omega
        · intro h; exact absurd h (by decide)
      · have hstep : pdStep s part rest.head? =
            ⟨s.added, s.removed,
             s.changed ++ (List.range (lineCountOf part.value)).map
               (fun (i : Nat) => s.lineNumber + (i : Int)),
             s.lineNumber + L, s.currentAddedRange, 0, -1⟩ := by
          simp [pdStep, hadd, hrcpos, hranm, hra, hinv.lineNonneg, hlt,
            Nat.min_eq_left (Nat.not_lt.mp hlt), hL]
        rw [hstep]
        refine ih _ true part.removed false halt' (fun _ => hpa') hpr' ?_ ?_ ?_ ?_ ?_ ?_
        · intro h; exact absurd h (by decide)
        · intro _; exact Or.inl rfl
        · intro h; exact absurd (Nat.lt_irrefl 0 h) (by simp)
        · refine changeInv s _ L (lineCountOf part.value) hLpos ?_ rfl rfl rfl hinv hstrict ?_
          · rw [hL]
          · exact Or.inl (fun q => Iff.rfl)
        · intro _ x hx
          show x < s.lineNumber + L
          have := hinv.removedBound x hx
          omega
        · intro h; exact absurd h (by decide)
    · by_cases hc2 : part.added = true
      · -- pure addition
        have hrc0 : s.removedLineCount = 0 := by
          by_contra h
          have hpos := Nat.pos_of_ne_zero h
          obtain ⟨-, hra, -⟩ := hco hpos
          exact hc1 ⟨hc2, hpos, by rw [hra]; exact hinv.lineNonneg⟩
        have hpaf : pa = false := by
          cases pa with
          | false => rfl
          | true => exact absurd hc2 (by simp [hpa rfl part rfl])
        have hppf : pp = false := by
          cases pp with
          | false => rfl
          | true => exact absurd hc2 (by simp [hpp rfl part rfl])
        have hprf : pr = false := by
          cases pr with
          | false => rfl
          | true =>
            rcases hflag rfl with h | h | h
            · rw [hpaf] at h; cases h
            · rw [hppf] at h; cases h
            · omega
        have hgap : ∀ r ∈ addedList s, r.endLine + 1 < s.lineNumber := hcondB hpaf hprf
        have hstrict : ∀ x ∈ s.removed, x < s.lineNumber := hcondA hprf
        have hpa' : ∀ c, rest.head? = some c → c.added = false := by
          intro c hc
          have := (hrel c hc).1
          cases hca : c.added
          · rfl
          · exact absurd ⟨hc2, hca⟩ this
        have hpr' : part.removed = true → ∀ c, rest.head? = some c → c.removed = false := by
          intro h c hc
          have := (hrel c hc).2
          cases hcr : c.removed
          · rfl
          · exact absurd ⟨h, hcr⟩ this
        rcases hcur : s.currentAddedRange with - | r
        · have hstep : pdStep s part rest.head? =
              ⟨s.added, s.removed, s.changed, s.lineNumber + L,
               some ⟨s.lineNumber, s.lineNumber + L - 1⟩, 0, s.removedAt⟩ := by
            simp [pdStep, hc1, hc2, hcur, hrc0, hL]
          have hal : ∀ q, q ∈ addedList ⟨s.added, s.removed, s.changed, s.lineNumber + L,
              some ⟨s.lineNumber, s.lineNumber + L - 1⟩, 0, s.removedAt⟩ ↔
              q ∈ addedList s ∨ q = ⟨s.lineNumber, s.lineNumber + L - 1⟩ := by
            intro q
            simp [addedList, hcur]
          rw [hstep]
          refine ih _ true part.removed false halt' (fun _ => hpa') hpr' ?_ ?_ ?_ ?_ ?_ ?_
          · intro h; exact absurd h (by decide)
          · intro _; exact Or.inl rfl
          · intro h; exact absurd (Nat.lt_irrefl 0 h) (by simp)
          · exact pureAddInv s _ L hLpos rfl rfl rfl hal hinv hstrict hgap
          · intro _ x hx
            show x < s.lineNumber + L
            have := hinv.removedBound x hx
            omega
          · intro h; exact absurd h (by decide)
        · by_cases hext : r.endLine = s.lineNumber - 1
          · exfalso
            have hrmem : r ∈ addedList s := by simp [addedList, hcur]
            have := hgap r hrmem
            omega
          · have hstep : pdStep s part rest.head? =
                ⟨s.added ++ [r], s.removed, s.changed, s.lineNumber + L,
                 some ⟨s.lineNumber, s.lineNumber + L - 1⟩, 0, s.removedAt⟩ := by
              simp [pdStep, hc1, hc2, hcur, hext, hrc0, hL]
            have hal : ∀ q, q ∈ addedList ⟨s.added ++ [r], s.removed, s.changed,
                s.lineNumber + L, some ⟨s.lineNumber, s.lineNumber + L - 1⟩, 0, s.removedAt⟩ ↔
                q ∈ addedList s ∨ q = ⟨s.lineNumber, s.lineNumber + L - 1⟩ := by
              intro q
              simp only [addedList, hcur, Option.toList_some, List.mem_append,
                List.mem_singleton]
            rw [hstep]
            refine ih _ true part.removed false halt' (fun _ => hpa') hpr' ?_ ?_ ?_ ?_ ?_ ?_
            · intro h; exact absurd h (by decide)
            · intro _; exact Or.inl rfl
            · intro h; exact absurd (Nat.lt_irrefl 0 h) (by simp)
            · exact pureAddInv s _ L hLpos rfl rfl rfl hal hinv hstrict hgap
            · intro _ x hx
              show x < s.lineNumber + L
              have := hinv.removedBound x hx
              omega
            · intro h; exact absurd h (by decide)
      · by_cases hc3 : part.removed = true
        · -- deletion
          have hrc0 : s.removedLineCount = 0 := by
            by_contra h
            obtain ⟨⟨c, hch, hcadd⟩, -, -⟩ := hco (Nat.pos_of_ne_zero h)
            rw [List.head?_cons] at hch
            cases Option.some.inj hch
            exact hc2 hcadd
          have hprf : pr = false := by
            cases pr with
            | false => rfl
            | true => exact absurd hc3 (by simp [hpr rfl part rfl])
          have hstrict : ∀ x ∈ s.removed, x < s.lineNumber := hcondA hprf
          have hrelrem : ∀ c, rest.head? = some c → c.removed = false := by
            intro c hc
            have := (hrel c hc).2
            cases hcrem : c.removed
            · rfl
            · exact absurd ⟨hc3, hcrem⟩ this
          cases hnp : rest.head? with
          | some np =>
            by_cases hnpa : np.added = true
            · -- pending deletion kept for the following insertion
              have hstep : pdStep s part (some np) =
                  ⟨s.added, s.removed, s.changed, s.lineNumber,
                   s.currentAddedRange, lineCountOf part.value, s.lineNumber⟩ := by
                simp [pdStep, hc1, hc2, hc3, hrc0, hnpa]
              rw [hstep]
              refine ih _ false true false halt' ?_ (fun _ => hrelrem) ?_ ?_ ?_ ?_ ?_ ?_
              · intro h; exact absurd h (by decide)
              · intro h; exact absurd h (by decide)
              · intro _
                refine Or.inr (Or.inr ?_)
                show 0 < lineCountOf part.value
                exact lineCountOf_pos part.value
              · intro _
                exact ⟨⟨np, hnp, hnpa⟩, rfl, hstrict⟩
              · exact ⟨hinv.lineNonneg, hinv.addedBound, hinv.addedNonAdj,
                  hinv.removedNodup, hinv.removedBound, hinv.changedNodup,
                  hinv.changedBound, hinv.remAdd, hinv.chgAdd, hinv.remChg⟩
              · intro h; exact absurd h (by decide)
              · intro _ h; exact absurd h (by decide)
            · -- resolved at once as a pure removal
              have hstep : pdStep s part (some np) =
                  ⟨s.added, s.removed ++ [s.lineNumber], s.changed, s.lineNumber,
                   s.currentAddedRange, 0, -1⟩ := by
                simp [pdStep, hc1, hc2, hc3, hrc0, hnpa]
              have hnotmem : s.lineNumber ∉ s.removed := by
                intro hm
                have := hstrict _ hm
                omega
              rw [hstep]
              refine ih _ false true true halt' ?_ (fun _ => hrelrem) ?_ ?_ ?_ ?_ ?_ ?_
              · intro h; exact absurd h (by decide)
              · intro _ c hc
                rw [hnp] at hc
                cases Option.some.inj hc
                simpa using hnpa
              · intro _
                exact Or.inr (Or.inl rfl)
              · intro h; exact absurd (Nat.lt_irrefl 0 h) (by simp)
              · refine ⟨hinv.lineNonneg, hinv.addedBound, hinv.addedNonAdj, ?_, ?_,
                  hinv.changedNodup, hinv.changedBound, ?_, hinv.chgAdd, ?_⟩
                · exact nodup_append_singleton hinv.removedNodup hnotmem
                · intro x hx
                  show x ≤ s.lineNumber
                  rcases List.mem_append.mp hx with h | h
                  · exact hinv.removedBound x h
                  · rw [List.mem_singleton.mp h]
                · intro x hx q hq
                  rcases List.mem_append.mp hx with h | h
                  · exact hinv.remAdd x h q hq
                  · rw [List.mem_singleton.mp h]
                    have := (hinv.addedBound q hq).2
                    omega
                · intro x hx
                  rcases List.mem_append.mp hx with h | h
                  · exact hinv.remChg x h
                  · rw [List.mem_singleton.mp h]
                    intro hmem
                    have := hinv.changedBound _ hmem
                    omega
              · intro h; exact absurd h (by decide)
              · intro _ h; exact absurd h (by decide)
          | none =>
            have hstep : pdStep s part none =
                ⟨s.added, s.removed ++ [s.lineNumber], s.changed, s.lineNumber,
                 s.currentAddedRange, 0, -1⟩ := by
              simp [pdStep, hc1, hc2, hc3, hrc0]
            have hnotmem : s.lineNumber ∉ s.removed := by
              intro hm
              have := hstrict _ hm
              omega
            rw [hstep]
            refine ih _ false true true halt' ?_ (fun _ => hrelrem) ?_ ?_ ?_ ?_ ?_ ?_
            · intro h; exact absurd h (by decide)
            · intro _ c hc
              rw [hnp] at hc
              cases hc
            · intro _
              exact Or.inr (Or.inl rfl)
            · intro h; exact absurd (Nat.lt_irrefl 0 h) (by simp)
            · refine ⟨hinv.lineNonneg, hinv.addedBound, hinv.addedNonAdj, ?_, ?_,
                hinv.changedNodup, hinv.changedBound, ?_, hinv.chgAdd, ?_⟩
              · exact nodup_append_singleton hinv.removedNodup hnotmem
              · intro x hx
                show x ≤ s.lineNumber
                rcases List.mem_append.mp hx with h | h
                · exact hinv.removedBound x h
                · rw [List.mem_singleton.mp h]
              · intro x hx q hq
                rcases List.mem_append.mp hx with h | h
                · exact hinv.remAdd x h q hq
                · rw [List.mem_singleton.mp h]
                  have := (hinv.addedBound q hq).2
                  omega
              · intro x hx
                rcases List.mem_append.mp hx with h | h
                · exact hinv.remChg x h
                · rw [List.mem_singleton.mp h]
                  intro hmem
                  have := hinv.changedBound _ hmem
                  omega
            · intro h; exact absurd h (by decide)
            · intro _ h; exact absurd h (by decide)
        · -- unchanged
          have hrc0 : s.removedLineCount = 0 := by
            by_contra h
            obtain ⟨⟨c, hch, hcadd⟩, -, -⟩ := hco (Nat.pos_of_ne_zero h)
            rw [List.head?_cons] at hch
            cases Option.some.inj hch
            exact hc2 hcadd
          have hnotlt : ¬ 0 < s.removedLineCount := by omega
          rcases hcur : s.currentAddedRange with - | r
          · have hstep : pdStep s part rest.head? =
                ⟨s.added, s.removed, s.changed, s.lineNumber + L,
                 s.currentAddedRange, s.removedLineCount, s.removedAt⟩ := by
              simp [pdStep, hc1, hc2, hc3, hnotlt, hcur, hL]
            rw [hstep]
            refine ih _ false false false halt' ?_ ?_ ?_ ?_ ?_ ?_ ?_ ?_
            · intro h; exact absurd h (by decide)
            · intro h; exact absurd h (by decide)
            · intro h; exact absurd h (by decide)
            · intro h; exact absurd h (by decide)
            · intro h; rw [show (⟨s.added, s.removed, s.changed, s.lineNumber + L,
                s.currentAddedRange, s.removedLineCount, s.removedAt⟩ : PDState).removedLineCount
                = s.removedLineCount from rfl, hrc0] at h
              exact absurd h (by decide)
            · refine ⟨?_, ?_, ?_, ?_, ?_, ?_, ?_, ?_, ?_, ?_⟩
              · show (0 : Int) ≤ s.lineNumber + L
                have := hinv.lineNonneg; omega
              · intro r hr
                have h := hinv.addedBound r hr
                refine ⟨h.1, ?_⟩
                show r.endLine < s.lineNumber + L
                have := h.2; omega
              · exact hinv.addedNonAdj
              · exact hinv.removedNodup
              · intro x hx
                show x ≤ s.lineNumber + L
                have := hinv.removedBound x hx; omega
              · exact hinv.changedNodup
              · intro x hx
                show x < s.lineNumber + L
                have := hinv.changedBound x hx; omega
              · exact hinv.remAdd
              · exact hinv.chgAdd
              · exact hinv.remChg
            · intro _ x hx
              show x < s.lineNumber + L
              have := hinv.removedBound x hx; omega
            · intro _ _ r hr
              show r.endLine + 1 < s.lineNumber + L
              have := (hinv.addedBound r hr).2; omega
          · have hstep : pdStep s part rest.head? =
                ⟨s.added ++ [r], s.removed, s.changed, s.lineNumber + L,
                 none, s.removedLineCount, s.removedAt⟩ := by
              simp [pdStep, hc1, hc2, hc3, hnotlt, hcur, hL]
            have haleq : addedList ⟨s.added ++ [r], s.removed, s.changed, s.lineNumber + L,
                none, s.removedLineCount, s.removedAt⟩ = addedList s := by
              simp [addedList, hcur]
            rw [hstep]
            refine ih _ false false false halt' ?_ ?_ ?_ ?_ ?_ ?_ ?_ ?_
            · intro h; exact absurd h (by decide)
            · intro h; exact absurd h (by decide)
            · intro h; exact absurd h (by decide)
            · intro h; exact absurd h (by decide)
            · intro h; rw [show (⟨s.added ++ [r], s.removed, s.changed, s.lineNumber + L,
                none, s.removedLineCount, s.removedAt⟩ : PDState).removedLineCount
                = s.removedLineCount from rfl, hrc0] at h
              exact absurd h (by decide)
            · refine ⟨?_, ?_, ?_, ?_, ?_, ?_, ?_, ?_, ?_, ?_⟩
              · show (0 : Int) ≤ s.lineNumber + L
                have := hinv.lineNonneg; omega
              · rw [haleq]
                intro q hq
                have h := hinv.addedBound q hq
                refine ⟨h.1, ?_⟩
                show q.endLine < s.lineNumber + L
                have := h.2; omega
              · rw [haleq]; exact hinv.addedNonAdj
              · exact hinv.removedNodup
              · intro x hx
                show x ≤ s.lineNumber + L
                have := hinv.removedBound x hx; omega
              · exact hinv.changedNodup
              · intro x hx
                show x < s.lineNumber + L
                have := hinv.changedBound x hx; omega
              · rw [haleq]; exact hinv.remAdd
              · rw [haleq]; exact hinv.chgAdd
              · exact hinv.remChg
            · intro _ x hx
              show x < s.lineNumber + L
              have := hinv.removedBound x hx; omega
            · intro _ _
              rw [haleq]
              intro q hq
              show q.endLine + 1 < s.lineNumber + L
              have := (hinv.addedBound q hq).2; omega

/-- The classifier pass started from the initial state on a
producer-wellformed run sequence satisfies the core invariants and ends with
no pending deletion. -/
theorem processDiffResult_inv (runs : List Change) (halt : altOk runs = true) :
    CoreInv (pdLoop initPD runs) ∧ (pdLoop initPD runs).removedLineCount = 0 := by
  refine pdLoop_master runs initPD false false false halt ?_ ?_ ?_ ?_ ?_ ?_ ?_ ?_
  · intro h; exact absurd h (by decide)
  · intro h; exact absurd h (by decide)
  · intro h; exact absurd h (by decide)
  · intro h; exact absurd h (by decide)
  · intro h; exact absurd h (by decide)
  · refine ⟨by decide, ?_, ?_, ?_, ?_, ?_, ?_, ?_, ?_, ?_⟩
    · intro r hr; exact absurd hr (by simp [initPD, addedList])
    · intro a ha; exact absurd ha (by simp [initPD, addedList])
    · simp [initPD]
    · intro x hx; exact absurd hx (by simp [initPD])
    · simp [initPD]
    · intro x hx; exact absurd hx (by simp [initPD])
    · intro x hx; exact absurd hx (by simp [initPD])
    · intro x hx; exact absurd hx (by simp [initPD])
    · intro x hx; exact absurd hx (by simp [initPD])
  · intro _ x hx; exact absurd hx (by simp [initPD])
  · intro _ _ r hr; exact absurd hr (by simp [initPD, addedList])

/-- With no pending deletion, the post-loop flushes only close the open
added range. -/
theorem pdFinalize_rc_zero (s : PDState) (h : s.removedLineCount = 0) :
    (pdFinalize s).added = addedList s ∧ (pdFinalize s).removed = s.removed ∧
    (pdFinalize s).changed = s.changed ∧ (pdFinalize s).lineNumber = s.lineNumber := by
  unfold pdFinalize
  rw [if_neg (by omega)]
  cases hcur : s.currentAddedRange <;> simp [addedList, hcur]

/-- The end-of-file artifact check only ever drops entries. -/
theorem suppressEof_subset (added : List DiffRange) (n : Int) (d : List Change) :
    suppressEof added n d ⊆ added := by
  unfold suppressEof
  split
  · exact fun x hx => hx
  · split
    · split
      · split
        · exact (List.dropLast_sublist _).subset
        · exact fun x hx => hx
      · exact fun x hx => hx
    · exact fun x hx => hx

/-- A single parser step never introduces a duplicate removed anchor. -/
theorem puStep_removed_nodup (s : PUState) (line : List Char)
    (rest : List (List Char)) (h : s.removed.Nodup) :
    (puStep s line rest).removed.Nodup := by
  unfold puStep
  split
  · exact h
  · split
    · split <;> exact h
    · split
      · split
        · exact h
        · split <;> exact h
      · split
        · split
          · exact h
          · split
            · exact h
            · next hmem => exact nodup_append_singleton h hmem
        · split <;> split <;> exact h

/-- The parser loop never introduces a duplicate removed anchor. -/
theorem puLoop_removed_nodup (lines : List (List Char)) :
    ∀ s : PUState, s.removed.Nodup → (puLoop s lines).removed.Nodup := by
  induction lines with
  | nil => intro s h; exact h
  | cons l ls ih =>
    intro s h
    exact ih _ (puStep_removed_nodup s l ls h)

/-- The removed anchors of the unified-diff parser are always duplicate
free: each push is guarded by a membership test. -/
theorem parseUnifiedDiff_removed_nodup (t : String) :
    (parseUnifiedDiff t).removed.Nodup := by
  show (puLoop ⟨[], [], [], 0, none⟩ (splitOnNl t.toList)).removed.Nodup
  exact puLoop_removed_nodup _ _ (by simp)

/-- Claim C4 counterexample: on the standard unified diff of an in-place
edit, the parser reports line 1 both as a changed anchor and inside an added
range, so a line index appears in two collections at once. -/
theorem c4_counterexample :
    ∃ x ∈ (parseUnifiedDiff "--- a/f\n+++ b/f\n@@ -1,3 +1,3 @@\n a\n-b\n+X\n c\n").changed,
    ∃ r ∈ (parseUnifiedDiff "--- a/f\n+++ b/f\n@@ -1,3 +1,3 @@\n a\n-b\n+X\n c\n").added,
      r.startLine ≤ x ∧ x ≤ r.endLine := by
  decide

/-- Claim C4 amended: for the run classifier on a producer-wellformed run
sequence (no two consecutive runs share a tag), no current-file line index
appears in more than one collection: no removed or changed anchor lies in an
added range, and no line is both a removed and a changed anchor.  The
unified-diff parser does not satisfy this. -/
theorem c4_run_classifier_no_overlap (runs : List Change) (halt : altOk runs = true) :
    (∀ x ∈ (processDiffResult runs).removed, ∀ r ∈ (processDiffResult runs).added,
      ¬(r.startLine ≤ x ∧ x ≤ r.endLine)) ∧
    (∀ x ∈ (processDiffResult runs).changed, ∀ r ∈ (processDiffResult runs).added,
      ¬(r.startLine ≤ x ∧ x ≤ r.endLine)) ∧
    (∀ x ∈ (processDiffResult runs).removed, x ∉ (processDiffResult runs).changed) := by
  obtain ⟨hinv, hrc⟩ := processDiffResult_inv runs halt
  obtain ⟨ha, hr, hc, -⟩ := pdFinalize_rc_zero (pdLoop initPD runs) hrc
  have hsub : (processDiffResult runs).added ⊆ addedList (pdLoop initPD runs) := by
    show suppressEof (pdFinalize (pdLoop initPD runs)).added
      (pdFinalize (pdLoop initPD runs)).lineNumber runs ⊆ _
    rw [ha]
    exact suppressEof_subset _ _ _
  have hrem : (processDiffResult runs).removed = (pdLoop initPD runs).removed := hr
  have hchg : (processDiffResult runs).changed = (pdLoop initPD runs).changed := hc
  refine ⟨?_, ?_, ?_⟩
  · rw [hrem]
    intro x hx r hrr
    exact hinv.remAdd x hx r (hsub hrr)
  · rw [hchg]
    intro x hx r hrr
    exact hinv.chgAdd x hx r (hsub hrr)
  · rw [hrem, hchg]
    exact hinv.remChg

/-- Claim C4 witness at the runs of an interior two-line replacement. -/
theorem c4_witness :
    (∀ x ∈ (processDiffResult [⟨"a\n", false, false⟩, ⟨"b\n", false, true⟩,
        ⟨"X\nY\n", true, false⟩, ⟨"c\n", false, false⟩]).removed,
      ∀ r ∈ (processDiffResult [⟨"a\n", false, false⟩, ⟨"b\n", false, true⟩,
        ⟨"X\nY\n", true, false⟩, ⟨"c\n", false, false⟩]).added,
      ¬(r.startLine ≤ x ∧ x ≤ r.endLine)) ∧
    (∀ x ∈ (processDiffResult [⟨"a\n", false, false⟩, ⟨"b\n", false, true⟩,
        ⟨"X\nY\n", true, false⟩, ⟨"c\n", false, false⟩]).changed,
      ∀ r ∈ (processDiffResult [⟨"a\n", false, false⟩, ⟨"b\n", false, true⟩,
        ⟨"X\nY\n", true, false⟩, ⟨"c\n", false, false⟩]).added,
      ¬(r.startLine ≤ x ∧ x ≤ r.endLine)) ∧
    (∀ x ∈ (processDiffResult [⟨"a\n", false, false⟩, ⟨"b\n", false, true⟩,
        ⟨"X\nY\n", true, false⟩, ⟨"c\n", false, false⟩]).removed,
      x ∉ (processDiffResult [⟨"a\n", false, false⟩, ⟨"b\n", false, true⟩,
        ⟨"X\nY\n", true, false⟩, ⟨"c\n", false, false⟩]).changed) :=
  c4_run_classifier_no_overlap [⟨"a\n", false, false⟩, ⟨"b\n", false, true⟩,
    ⟨"X\nY\n", true, false⟩, ⟨"c\n", false, false⟩] (by decide)

/-- Claim C5 counterexample: the parser's changed anchors are not
deduplicated: a second hunk whose header rewinds the target cursor makes the
same changed anchor appear twice. -/
theorem c5_counterexample :
    (parseUnifiedDiff "@@ -1,1 +1,1 @@\n-a\n+b\n@@ -5,1 +1,1 @@\n-c\n+d\n").changed
      = [0, 0] ∧
    ¬ (parseUnifiedDiff "@@ -1,1 +1,1 @@\n-a\n+b\n@@ -5,1 +1,1 @@\n-c\n+d\n").changed.Nodup := by
  constructor
  · decide
  · decide

/-- Claim C5 amended: the removed collection never holds the same position
twice in either front end (the parser deduplicates removed anchors
explicitly on every input; the run classifier on producer-wellformed runs
pushes strictly increasing removed anchors), and the run classifier's
changed collection never repeats either; the parser's changed collection is
not deduplicated. -/
theorem c5_anchors_deduplicated (runs : List Change) (t : String)
    (halt : altOk runs = true) :
    (parseUnifiedDiff t).removed.Nodup ∧
    (processDiffResult runs).removed.Nodup ∧
    (processDiffResult runs).changed.Nodup := by
  obtain ⟨hinv, hrc⟩ := processDiffResult_inv runs halt
  obtain ⟨-, hr, hc, -⟩ := pdFinalize_rc_zero (pdLoop initPD runs) hrc
  refine ⟨parseUnifiedDiff_removed_nodup t, ?_, ?_⟩
  · show (pdFinalize (pdLoop initPD runs)).removed.Nodup
    rw [hr]
    exact hinv.removedNodup
  · show (pdFinalize (pdLoop initPD runs)).changed.Nodup
    rw [hc]
    exact hinv.changedNodup

/-- Claim C5 witness at an in-place edit run sequence and its diff text. -/
theorem c5_witness :
    (parseUnifiedDiff "@@ -1,3 +1,3 @@\n a\n-b\n+X\n c\n").removed.Nodup ∧
    (processDiffResult [⟨"b\n", false, true⟩, ⟨"X\n", true, false⟩]).removed.Nodup ∧
    (processDiffResult [⟨"b\n", false, true⟩, ⟨"X\n", true, false⟩]).changed.Nodup :=
  c5_anchors_deduplicated [⟨"b\n", false, true⟩, ⟨"X\n", true, false⟩]
    "@@ -1,3 +1,3 @@\n a\n-b\n+X\n c\n" (by decide)

/-- Claim C6 counterexample: two hunks whose headers place their insertions
on adjacent lines make the parser emit two adjacent added ranges. -/
theorem c6_counterexample :
    ∃ a ∈ (parseUnifiedDiff "@@ -1,1 +1,1 @@\n+a\n@@ -9,1 +2,1 @@\n+b\n").added,
    ∃ b ∈ (parseUnifiedDiff "@@ -1,1 +1,1 @@\n+a\n@@ -9,1 +2,1 @@\n+b\n").added,
      a.endLine + 1 = b.startLine := by
  decide

/-- Claim C6 amended: for the run classifier on a producer-wellformed run
sequence the added ranges are maximal: the endLine of one range is never
exactly one less than the startLine of another; in particular adjacent
inserted lines classify as the single range from 1 to 2.  The unified-diff
parser guarantees this only within a hunk. -/
theorem c6_added_ranges_maximal (runs : List Change) (halt : altOk runs = true) :
    (∀ a ∈ (processDiffResult runs).added, ∀ b ∈ (processDiffResult runs).added,
      a.endLine + 1 ≠ b.startLine) ∧
    classifyFromTexts "a\nd\n" "a\nb\nc\nd\n" = ⟨[⟨1, 2⟩], [], [], []⟩ := by
  obtain ⟨hinv, hrc⟩ := processDiffResult_inv runs halt
  obtain ⟨ha, -, -, -⟩ := pdFinalize_rc_zero (pdLoop initPD runs) hrc
  have hsub : (processDiffResult runs).added ⊆ addedList (pdLoop initPD runs) := by
    show suppressEof (pdFinalize (pdLoop initPD runs)).added
      (pdFinalize (pdLoop initPD runs)).lineNumber runs ⊆ _
    rw [ha]
    exact suppressEof_subset _ _ _
  refine ⟨?_, by decide⟩
  intro a haa b hbb
  exact hinv.addedNonAdj a (hsub haa) b (hsub hbb)

/-- Claim C6 witness at the runs of an adjacent two-line insertion. -/
theorem c6_witness :
    (∀ a ∈ (processDiffResult [⟨"a\n", false, false⟩, ⟨"b\nc\n", true, false⟩,
        ⟨"d\n", false, false⟩]).added,
      ∀ b ∈ (processDiffResult [⟨"a\n", false, false⟩, ⟨"b\nc\n", true, false⟩,
        ⟨"d\n", false, false⟩]).added,
      a.endLine + 1 ≠ b.startLine) ∧
    classifyFromTexts "a\nd\n" "a\nb\nc\nd\n" = ⟨[⟨1, 2⟩], [], [], []⟩ :=
  c6_added_ranges_maximal [⟨"a\n", false, false⟩, ⟨"b\nc\n", true, false⟩,
    ⟨"d\n", false, false⟩] (by decide)

end SourceTools
